import Mathlib

/-!
Verification of the JavaScript shell (Zahidmohd/Shell_JavaScript, file `part_005`).

Strings are modelled as lists of characters (`Str`).  Each definition below is a
shallow embedding of the correspondingly named JavaScript function; comments give
the source lines.  Recursive rewriting functions (`expandBraces`, `expandAliases`)
are defined with an explicit structural fuel equal to a proved decreasing measure,
together with fuel-irrelevance lemmas showing the fuel never runs out, so that the
definitions both compute by `decide` and satisfy the exact recursion equation of
the JavaScript source.
-/

namespace ShellJS

abbrev Str := List Char

/-- Number of `{` characters; the decreasing measure of `expandBraces`. -/
def countB (s : Str) : Nat := s.count '{'

/-- JavaScript `\w` character class: `[A-Za-z0-9_]`. -/
def isWordChar (c : Char) : Bool := c.isAlphanum || c = '_'

/-- JavaScript `pattern.includes('..')`: two consecutive dots occur somewhere. -/
def hasDotDot : Str → Bool
  | [] => false
  | [_] => false
  | a :: b :: rest => (a = '.' && b = '.') || hasDotDot (b :: rest)

/-- Validity test of `findBracePattern` (part_005 line 331):
`pattern.includes(',') || pattern.includes('..')`. -/
def validPattern (pat : Str) : Bool := pat.contains ',' || hasDotDot pat

/-- The scanning loop of `findBracePattern` (part_005 lines 293-341).
`pre` holds (reversed) the characters before the current candidate group,
`acc` holds (reversed) the characters inside the currently open group
(excluding its opening brace), `depth` is `braceDepth`, and `insq`/`indq`
are the quote flags.  Quote characters toggle the flags and are kept in the
surrounding text; braces inside quotes are ignored for depth tracking. -/
def findBraceAux : Str → Str → Str → Nat → Bool → Bool → Option (Str × Str × Str)
  | [], _, _, _, _, _ => none
  | c :: rest, pre, acc, depth, insq, indq =>
    if c = '\'' && !indq then
      if depth = 0 then findBraceAux rest (c :: pre) acc depth (!insq) indq
      else findBraceAux rest pre (c :: acc) depth (!insq) indq
    else if c = '"' && !insq then
      if depth = 0 then findBraceAux rest (c :: pre) acc depth insq (!indq)
      else findBraceAux rest pre (c :: acc) depth insq (!indq)
    else if insq || indq then
      if depth = 0 then findBraceAux rest (c :: pre) acc depth insq indq
      else findBraceAux rest pre (c :: acc) depth insq indq
    else if c = '{' then
      if depth = 0 then findBraceAux rest pre [] 1 insq indq
      else findBraceAux rest pre (c :: acc) (depth + 1) insq indq
    else if c = '}' && depth > 0 then
      if depth = 1 then
        if validPattern acc.reverse then some (pre.reverse, acc.reverse, rest)
        else findBraceAux rest ('}' :: (acc ++ '{' :: pre)) [] 0 insq indq
      else findBraceAux rest pre (c :: acc) (depth - 1) insq indq
    else
      if depth = 0 then findBraceAux rest (c :: pre) acc depth insq indq
      else findBraceAux rest pre (c :: acc) depth insq indq

/-- The function `findBracePattern` (part_005 lines 293-341): first quote-aware, brace-balanced
top-level `{...}` whose interior contains `,` or `..`, returned as
(prefix, pattern, suffix). -/
def findBracePattern (s : Str) : Option (Str × Str × Str) :=
  findBraceAux s [] [] 0 false false

/-- JavaScript `String.prototype.split(',')`. -/
def splitComma : Str → List Str
  | [] => [[]]
  | c :: rest =>
    if c = ',' then [] :: splitComma rest
    else
      match splitComma rest with
      | [] => [[c]]
      | p :: ps => (c :: p) :: ps

/-- The regex match `pattern.match(/^(\w+)\.\.(\w+)$/)` (part_005 line 273):
decompose `pat` as `start ++ ".." ++ end` with both tokens nonempty `\w+`. -/
def seqMatch (pat : Str) : Option (Str × Str) :=
  let start := pat.takeWhile (· ≠ '.')
  match pat.dropWhile (· ≠ '.') with
  | '.' :: '.' :: stop =>
    if start ≠ [] && start.all isWordChar && stop ≠ [] && stop.all isWordChar then
      some (start, stop)
    else none
  | _ => none

/-- Numeric value of a nonempty digit string. -/
def digitsVal (ds : Str) : Nat := ds.foldl (fun a c => a * 10 + (c.toNat - 48)) 0

/-- JavaScript `parseInt(s, 10)` on a `\w+` token: the longest digit prefix,
`NaN` (here `none`) if there is none. -/
def parseIntJS (s : Str) : Option Nat :=
  let ds := s.takeWhile Char.isDigit
  if ds = [] then none else some (digitsVal ds)

/-- Decimal representation, mirroring JavaScript `String(i)` for naturals. -/
def natToStr (n : Nat) : Str :=
  if h : n < 10 then [Char.ofNat (48 + n)]
  else natToStr (n / 10) ++ [Char.ofNat (48 + n % 10)]
  decreasing_by exact Nat.div_lt_self (by omega) (by omega)

/-- JavaScript `String(i).padStart(w, '0')`. -/
def padZeros (w : Nat) (s : Str) : Str := List.replicate (w - s.length) '0' ++ s

/-- The inclusive `for` loop of `expandSequence` with step `±1`
(part_005 lines 352-369). -/
def rangeSeq (a b : Nat) : List Nat :=
  if a ≤ b then (List.range (b + 1 - a)).map (a + ·)
  else ((List.range (a + 1 - b)).map (b + ·)).reverse

/-- The function `expandSequence(start, end)` (part_005 lines 343-376). -/
def expandSequence (start stop : Str) : List Str :=
  match parseIntJS start, parseIntJS stop with
  | some a, some b =>
    (rangeSeq a b).map fun i =>
      if start.length > 1 && start.headD ' ' = '0' then padZeros start.length (natToStr i)
      else natToStr i
  | _, _ =>
    if start.length = 1 && stop.length = 1 then
      (rangeSeq (start.headD ' ').toNat (stop.headD ' ').toNat).map fun n => [Char.ofNat n]
    else
      [start ++ '.' :: '.' :: stop]

/-- The expansion list computed for one brace pattern (part_005 lines 272-279):
a sequence `{x..y}` when the regex matches, otherwise a comma split. -/
def expansionsOf (pat : Str) : List Str :=
  match seqMatch pat with
  | some (start, stop) => expandSequence start stop
  | none => splitComma pat

/-- The function `expandBraces` (part_005 lines 259-291) with structural fuel; the fuel used
by `expandBraces` is proved sufficient (`expandBracesGo_congr`), making
`expandBraces_eq` the exact recursion of the source. -/
def expandBracesGo : Nat → Str → List Str
  | 0, s => [s]
  | fuel + 1, s =>
    match findBracePattern s with
    | none => [s]
    | some (pre, pat, suf) =>
      ((expansionsOf pat).map fun e => expandBracesGo fuel (pre ++ e ++ suf)).flatten

/-- The function `expandBraces(str)` (part_005 lines 259-291). -/
def expandBraces (s : Str) : List Str := expandBracesGo (countB s + 1) s

/-- JavaScript `String.prototype.trim()`. -/
def trimStr (s : Str) : Str :=
  ((s.dropWhile (·.isWhitespace)).reverse.dropWhile (·.isWhitespace)).reverse

/-- The scanning loop of `splitBySemicolon` (part_005 lines 1598-1641):
`cur` is the reversed current command, `esc` the `escaped` flag. -/
def splitSemiAux : Str → Str → Bool → Bool → Bool → List Str
  | [], cur, _, _, _ =>
    if trimStr cur.reverse = [] then [] else [trimStr cur.reverse]
  | c :: rest, cur, insq, indq, esc =>
    if esc then splitSemiAux rest (c :: cur) insq indq false
    else if c = '\\' && !insq then splitSemiAux rest (c :: cur) insq indq true
    else if c = '\'' && !indq then splitSemiAux rest (c :: cur) (!insq) indq false
    else if c = '"' && !insq then splitSemiAux rest (c :: cur) insq (!indq) false
    else if c = ';' && !insq && !indq then
      (if trimStr cur.reverse = [] then [] else [trimStr cur.reverse]) ++
        splitSemiAux rest [] insq indq false
    else splitSemiAux rest (c :: cur) insq indq false

/-- The function `splitBySemicolon(commandLine)` (part_005 lines 1598-1641): quote-aware split
on `;`, trimming each piece and dropping empty pieces. -/
def splitBySemicolon (line : Str) : List Str := splitSemiAux line [] false false false

/-- The test `command.match(/^[^'"]*;[^'"]*$/)` (part_005 line 1276): the whole
line is free of quote characters and contains a semicolon. -/
def matchSemiNoQuotes (s : Str) : Bool :=
  s.contains ';' && !s.contains '\'' && !s.contains '"'

/-- The semicolon dispatch of `repl` (part_005 lines 1275-1284): `some cmds`
means the line is handed to `executeCommandsSequentially cmds`; `none` means it
falls through and is executed as a single command. -/
def replSemicolonSplit (command : Str) : Option (List Str) :=
  if command.contains ';' && !matchSemiNoQuotes command then
    let commands := splitBySemicolon command
    if commands.length > 1 then some commands else none
  else none

/-- One stage of a pipeline as seen by `executePipeline` (part_005 lines
1043-1192): a builtin with its in-process exit code, an external command whose
program was not located in PATH, or a spawned external whose `close` event
carries `closeCode` (`none` models the JavaScript `null` status). -/
inductive Stage
  | builtin (exitCode : Int)
  | notFound
  | external (closeCode : Option Int)
deriving DecidableEq

/-- Whether `findExecutable` located the stage's program. -/
def stageFound : Stage → Bool
  | .notFound => false
  | _ => true

/-- The exit status a completed stage reports: `code !== null ? code : 0` for an
external process (line 1149), the stored `exitCode` for a builtin. -/
def stageStatus : Stage → Int
  | .builtin c => c
  | .external code => code.getD 0
  | .notFound => 0

/-- The effect of `executePipeline(commands)` on `lastExitCode` (part_005 lines
1028-1195), for pipelines without redirection errors: with at most one stage the
function returns without touching it (lines 1029, 1034-1037); if some stage's
program cannot be located it prints `command not found` and returns with
`lastExitCode` untouched (lines 1066-1070); otherwise the `close`/`end` handler
of the *last* stage stores that stage's status (lines 1147-1191, where the
JavaScript `lastProc.exitCode || 0` equals the builtin's exit code). -/
def executePipelineExit (stages : List Stage) (prev : Int) : Int :=
  if stages.length ≤ 1 then prev
  else if stages.any (fun st => !stageFound st) then prev
  else
    match stages.getLast? with
    | some st => stageStatus st
    | none => prev

/-- The first-word scan of `expandAliases` (part_005 lines 1204-1232): characters
accumulate until an unquoted space, tab, `;`, `|` or `&`; quote characters toggle
the flag and are not part of the word. -/
def firstWordAux : Str → Bool → Char → Str → Str
  | [], _, _, acc => acc.reverse
  | c :: rest, inQ, qc, acc =>
    if !inQ && (c = '"' || c = '\'') then firstWordAux rest true c acc
    else if inQ && c = qc then firstWordAux rest false qc acc
    else if !inQ && (c = ' ' || c = '\t' || c = ';' || c = '|' || c = '&') then acc.reverse
    else firstWordAux rest inQ qc (c :: acc)

/-- First word of a (trimmed) command line, as `expandAliases` extracts it. -/
def firstWordOf (s : Str) : Str := firstWordAux s false ' ' []

/-- The alias table (the JavaScript `aliases` Map), keys unique. -/
abbrev AliasTable := List (Str × Str)

/-- JavaScript `aliases.get(name)` (`none` when `aliases.has(name)` is false). -/
def lookupAlias (t : AliasTable) (k : Str) : Option Str :=
  (t.find? fun p => p.1 = k).map (·.2)

/-- Number of alias names not yet in the guard: the decreasing measure of
`expandAliases`. -/
def aliasFuel (t : AliasTable) (guard : List Str) : Nat :=
  ((t.map Prod.fst).filter fun k => decide (k ∉ guard)).length

/-- The function `expandAliases(commandLine, expandedAliases)` (part_005 lines 1198-1257)
with structural fuel; `expandAliases_eq` below shows the fuel used by
`expandAliases` is sufficient, so the recursion equation of the source holds. -/
def expandAliasesGo (t : AliasTable) : Nat → Str → List Str → Str
  | 0, line, _ => line
  | fuel + 1, line, guard =>
    let trimmed := trimStr line
    if trimmed = [] then line
    else
      let fw := firstWordOf trimmed
      match lookupAlias t fw with
      | none => line
      | some v =>
        if fw ∈ guard then line
        else expandAliasesGo t fuel (v ++ trimmed.drop fw.length) (fw :: guard)

/-- The function `expandAliases(commandLine)` with an initial guard (part_005 lines 1198-1257). -/
def expandAliases (t : AliasTable) (line : Str) (guard : List Str) : Str :=
  expandAliasesGo t (aliasFuel t guard + 1) line guard

/-- Job states (part_005 lines 702-704). -/
inductive JobState
  | running
  | stopped
  | done
deriving DecidableEq

/-- One mutation of a single job's `state` field, as performed by the code:
`updateJobStates` (lines 735-741, sets `Done` when the process has an exit
code), the `exit` callbacks registered on background processes (lines 1522-1524,
1556-1558, 1733-1735, set `Done`), the `bg` builtin (lines 944-962, resumes a
job to `Running`, guarded by an early error return when the job is `Done`), and
the `fg` builtin (lines 928-943, which never mutates the state). -/
inductive JobStep : JobState → JobState → Prop
  | update (exited : Bool) (s : JobState) : JobStep s (if exited then .done else s)
  | exitCallback (s : JobState) : JobStep s .done
  | bgResume (s : JobState) (h : s ≠ .done) : JobStep s .running
  | fgNoop (s : JobState) (h : s ≠ .done) : JobStep s s

/-- Job states reachable from the creation state `Running` (`addJob`, line 713). -/
def ReachableState (s : JobState) : Prop :=
  Relation.ReflTransGen JobStep .running s

/-- An entry of the `jobs` array (part_005 lines 707-718); the process handle is
modelled through the state mutations only. -/
structure Job where
  id : Nat
  command : Str
  state : JobState
  background : Bool
deriving DecidableEq

/-- The function `addJob` (part_005 lines 707-718) acting on the pair `(jobs, nextJobId)`. -/
def addJob (t : List Job × Nat) (cmd : Str) (bg : Bool) : List Job × Nat :=
  (t.1 ++ [⟨t.2, cmd, .running, bg⟩], t.2 + 1)

/-- The function `getJob(jobId)` (part_005 lines 730-732). -/
def getJob (jobs : List Job) (jobId : Nat) : Option Job :=
  jobs.find? fun j => j.id = jobId

/-- The function `updateJobStates` (part_005 lines 735-741); `exited j` models
`job.process && job.process.exitCode !== null`. -/
def updateJobStatesT (exited : Nat → Bool) (jobs : List Job) : List Job :=
  jobs.map fun j => if exited j.id then { j with state := .done } else j

/-- The `exit` callback of a background process (lines 1522-1524 etc.) setting
one job's state to `Done`. -/
def markDone (jobs : List Job) (jobId : Nat) : List Job :=
  jobs.map fun j => if j.id = jobId then { j with state := .done } else j

/-- JavaScript `cmdArgs[0] ? parseInt(cmdArgs[0]) : jobs.length` (lines 930, 946): the
defaulted job id used by `fg` and `bg`; `parseInt` is modelled at the interface
by the already-parsed optional argument. -/
def fgBgJobId (jobs : List Job) (arg : Option Nat) : Nat :=
  match arg with
  | some n => n
  | none => jobs.length

/-- The `fg` builtin (part_005 lines 928-943): result `(exitCode, output)`. -/
def fgBuiltin (jobs : List Job) (arg : Option Nat) : Int × Str :=
  let jobId := fgBgJobId jobs arg
  match getJob jobs jobId with
  | none => (1, "fg: ".toList ++ natToStr jobId ++ ": no such job\n".toList)
  | some j =>
    if j.state = .done then
      (1, "fg: ".toList ++ natToStr jobId ++ ": job has terminated\n".toList)
    else
      (0, "[".toList ++ natToStr j.id ++ "]  ".toList ++ j.command ++ "\n".toList)

/-- The `bg` builtin (part_005 lines 944-962): result `(exitCode, output)` and
the updated job table. -/
def bgBuiltin (jobs : List Job) (arg : Option Nat) : (Int × Str) × List Job :=
  let jobId := fgBgJobId jobs arg
  match getJob jobs jobId with
  | none => ((1, "bg: ".toList ++ natToStr jobId ++ ": no such job\n".toList), jobs)
  | some j =>
    if j.state = .done then
      ((1, "bg: ".toList ++ natToStr jobId ++ ": job has terminated\n".toList), jobs)
    else
      ((0, "[".toList ++ natToStr j.id ++ "]  ".toList ++ j.command ++ " &\n".toList),
        jobs.map fun jj =>
          if jj.id = j.id then { jj with state := .running, background := true } else jj)

/-- Job tables reachable by the shell: built from the empty table by `addJob`
(the only creator; `nextJobId` starts at 1, line 699), the state refreshes of
`updateJobStates`, the `bg` builtin, and process-exit callbacks.  `cleanupJobs`
(lines 721-727) is never invoked anywhere in part_005, so no entry is ever
removed. -/
inductive ReachableTable : List Job × Nat → Prop
  | init : ReachableTable ([], 1)
  | add (t : List Job × Nat) (cmd : Str) (bg : Bool) :
      ReachableTable t → ReachableTable (addJob t cmd bg)
  | update (jobs : List Job) (n : Nat) (exited : Nat → Bool) :
      ReachableTable (jobs, n) → ReachableTable (updateJobStatesT exited jobs, n)
  | bgStep (jobs : List Job) (n : Nat) (arg : Option Nat) :
      ReachableTable (jobs, n) → ReachableTable ((bgBuiltin jobs arg).2, n)
  | exitCb (jobs : List Job) (n : Nat) (jobId : Nat) :
      ReachableTable (jobs, n) → ReachableTable (markDone jobs jobId, n)

/-- The builtin name list of `executeBuiltin`'s `type` branch (line 828). -/
def builtinsList : List Str :=
  ["echo", "exit", "type", "pwd", "cd", "history", "source", "jobs", "fg", "bg",
    "alias", "unalias"].map String.toList

/-- A single-quote character (code 39). -/
def sq : Str := [Char.ofNat 39]

/-- The `type` branch of `executeBuiltin` (part_005 lines 826-842): the alias
table is consulted first, then the builtin list, then the PATH search
(`findExecutable`, modelled as the environment function `findExec`). -/
def typeBuiltin (aliases : AliasTable) (findExec : Str → Option Str) (arg : Str) :
    Int × Str :=
  match lookupAlias aliases arg with
  | some v => (0, arg ++ " is aliased to ".toList ++ sq ++ v ++ sq ++ ['\n'])
  | none =>
    if arg ∈ builtinsList then (0, arg ++ " is a shell builtin\n".toList)
    else
      match findExec arg with
      | some p => (0, arg ++ " is ".toList ++ p ++ ['\n'])
      | none => (1, arg ++ ": not found\n".toList)

/-! ### Lemmas about `findBracePattern` -/

/-- Scanning invariant of `findBraceAux`: a successful result reconstructs the
input, with the matched braces made explicit. -/
lemma findBraceAux_some_eq :
    ∀ (l pre acc : Str) (depth : Nat) (q1 q2 : Bool) (p pat suf : Str),
      (depth = 0 → acc = []) →
      findBraceAux l pre acc depth q1 q2 = some (p, pat, suf) →
      pre.reverse ++ (if depth = 0 then [] else ['{']) ++ acc.reverse ++ l
        = p ++ '{' :: (pat ++ '}' :: suf)
  | [], _, _, _, _, _, _, _, _, _, h => by simp [findBraceAux] at h
  | c :: rest, pre, acc, depth, q1, q2, p, pat, suf, hacc, h => by
    simp only [findBraceAux] at h
    by_cases hA1 : (decide (c = '\'') && !q2) = true
    · rw [if_pos hA1] at h
      by_cases hd : depth = 0
      · rw [if_pos hd] at h
        have ih := findBraceAux_some_eq rest (c :: pre) acc depth (!q1) q2 p pat suf hacc h
        simpa [hd, hacc hd, List.append_assoc] using ih
      · rw [if_neg hd] at h
        have ih := findBraceAux_some_eq rest pre (c :: acc) depth (!q1) q2 p pat suf
          (fun h0 => absurd h0 hd) h
        simpa [hd, List.append_assoc] using ih
    · rw [if_neg hA1] at h
      by_cases hA2 : (decide (c = '"') && !q1) = true
      · rw [if_pos hA2] at h
        by_cases hd : depth = 0
        · rw [if_pos hd] at h
          have ih := findBraceAux_some_eq rest (c :: pre) acc depth q1 (!q2) p pat suf hacc h
          simpa [hd, hacc hd, List.append_assoc] using ih
        · rw [if_neg hd] at h
          have ih := findBraceAux_some_eq rest pre (c :: acc) depth q1 (!q2) p pat suf
            (fun h0 => absurd h0 hd) h
          simpa [hd, List.append_assoc] using ih
      · rw [if_neg hA2] at h
        by_cases hA3 : (q1 || q2) = true
        · rw [if_pos hA3] at h
          by_cases hd : depth = 0
          · rw [if_pos hd] at h
            have ih := findBraceAux_some_eq rest (c :: pre) acc depth q1 q2 p pat suf hacc h
            simpa [hd, hacc hd, List.append_assoc] using ih
          · rw [if_neg hd] at h
            have ih := findBraceAux_some_eq rest pre (c :: acc) depth q1 q2 p pat suf
              (fun h0 => absurd h0 hd) h
            simpa [hd, List.append_assoc] using ih
        · rw [if_neg hA3] at h
          by_cases hA4 : c = '{'
          · rw [if_pos hA4] at h
            by_cases hd : depth = 0
            · rw [if_pos hd] at h
              have ih := findBraceAux_some_eq rest pre [] 1 q1 q2 p pat suf
                (fun h0 => absurd h0 one_ne_zero) h
              simpa [hd, hacc hd, hA4, List.append_assoc] using ih
            · rw [if_neg hd] at h
              have ih := findBraceAux_some_eq rest pre (c :: acc) (depth + 1) q1 q2 p pat suf
                (fun h0 => absurd h0 (Nat.succ_ne_zero depth)) h
              simpa [hd, hA4, List.append_assoc] using ih
          · rw [if_neg hA4] at h
            by_cases hA5 : (decide (c = '}') && decide (depth > 0)) = true
            · rw [if_pos hA5] at h
              simp only [Bool.and_eq_true, decide_eq_true_eq] at hA5
              obtain ⟨hc, hdpos⟩ := hA5
              by_cases hd1 : depth = 1
              · rw [if_pos hd1] at h
                by_cases hv : validPattern acc.reverse = true
                · rw [if_pos hv] at h
                  simp only [Option.some.injEq, Prod.mk.injEq] at h
                  obtain ⟨hp, hpat, hsuf⟩ := h
                  subst hp; subst hpat; subst hsuf
                  simp [hd1, hc, List.append_assoc]
                · rw [if_neg hv] at h
                  have ih := findBraceAux_some_eq rest ('}' :: (acc ++ '{' :: pre)) [] 0
                    q1 q2 p pat suf (fun _ => rfl) h
                  simpa [hd1, hc, List.append_assoc] using ih
              · rw [if_neg hd1] at h
                have hdm : depth - 1 ≠ 0 := by omega
                have ih := findBraceAux_some_eq rest pre (c :: acc) (depth - 1) q1 q2 p pat suf
                  (fun h0 => absurd h0 hdm) h
                have hdne : depth ≠ 0 := by omega
                simpa [hdne, hdm, hc, List.append_assoc] using ih
            · rw [if_neg hA5] at h
              by_cases hd : depth = 0
              · rw [if_pos hd] at h
                have ih := findBraceAux_some_eq rest (c :: pre) acc depth q1 q2 p pat suf hacc h
                simpa [hd, hacc hd, List.append_assoc] using ih
              · rw [if_neg hd] at h
                have ih := findBraceAux_some_eq rest pre (c :: acc) depth q1 q2 p pat suf
                  (fun h0 => absurd h0 hd) h
                simpa [hd, List.append_assoc] using ih

/-- A successful `findBracePattern` decomposes its input. -/
lemma findBracePattern_some_eq {s p pat suf : Str}
    (h : findBracePattern s = some (p, pat, suf)) :
    s = p ++ '{' :: (pat ++ '}' :: suf) := by
  have := findBraceAux_some_eq s [] [] 0 false false p pat suf (fun _ => rfl) h
  simpa using this

/-! ### The brace count of every expansion of a pattern is at most the pattern's -/

lemma splitComma_count_le (c : Char) :
    ∀ (l : Str), ∀ e ∈ splitComma l, e.count c ≤ l.count c := by
  intro l
  induction l with
  | nil => intro e he; simp [splitComma] at he; simp [he]
  | cons a rest ih =>
    intro e he
    by_cases ha : a = ','
    · simp only [splitComma, if_pos ha, List.mem_cons] at he
      rcases he with he | he
      · simp [he]
      · exact le_trans (ih e he) (List.count_le_count_cons _ _ _)
    · simp only [splitComma, if_neg ha] at he
      rcases hsc : splitComma rest with _ | ⟨pp, ps⟩
      · rw [hsc] at he
        simp only [List.mem_singleton] at he
        subst he
        simp only [List.count_cons, List.count_nil]
        omega
      · rw [hsc] at he
        simp only [List.mem_cons] at he
        rcases he with he | he
        · subst he
          have hp : pp ∈ splitComma rest := by rw [hsc]; exact List.mem_cons_self _ _
          have := ih pp hp
          simp only [List.count_cons]
          omega
        · have hp : e ∈ splitComma rest := by rw [hsc]; exact List.mem_cons_of_mem _ he
          exact le_trans (ih e hp) (List.count_le_count_cons _ _ _)

lemma natToStr_mem (n : Nat) : ∀ c ∈ natToStr n, ∃ d, d < 10 ∧ c = Char.ofNat (48 + d) := by
  induction n using Nat.strong_induction_on with
  | _ n ih =>
    intro c hc
    rw [natToStr] at hc
    by_cases h : n < 10
    · rw [dif_pos h] at hc
      simp only [List.mem_singleton] at hc
      exact ⟨n, h, hc⟩
    · rw [dif_neg h] at hc
      rcases List.mem_append.1 hc with hc | hc
      · exact ih (n / 10) (Nat.div_lt_self (by omega) (by omega)) c hc
      · simp only [List.mem_singleton] at hc
        exact ⟨n % 10, Nat.mod_lt _ (by omega), hc⟩

lemma natToStr_count_brace (n : Nat) : (natToStr n).count '{' = 0 := by
  rw [List.count_eq_zero]
  intro hmem
  obtain ⟨d, hd, hc⟩ := natToStr_mem n '{' hmem
  revert hc
  revert d hd
  decide

lemma padZeros_count_brace (w : Nat) (s : Str) (h : s.count '{' = 0) :
    (padZeros w s).count '{' = 0 := by
  simp [padZeros, List.count_append, h, List.count_replicate]

lemma rangeSeq_le (a b : Nat) : ∀ x ∈ rangeSeq a b, x ≤ max a b := by
  intro x hx
  unfold rangeSeq at hx
  split_ifs at hx with hab
  · simp only [List.mem_map, List.mem_range] at hx
    obtain ⟨k, hk, rfl⟩ := hx
    omega
  · simp only [List.mem_reverse, List.mem_map, List.mem_range] at hx
    obtain ⟨k, hk, rfl⟩ := hx
    omega

lemma isWordChar_toNat_le (c : Char) (h : isWordChar c = true) : c.toNat ≤ 122 := by
  simp only [isWordChar, Char.isAlphanum, Char.isAlpha, Char.isDigit, Char.isUpper,
    Char.isLower, Bool.or_eq_true, Bool.and_eq_true, decide_eq_true_eq] at h
  rcases h with ((⟨h1, h2⟩ | ⟨h1, h2⟩) | ⟨h1, h2⟩) | h1
  · exact le_trans (UInt32.toNat_le_of_le (by norm_num) h2) (by norm_num)
  · exact UInt32.toNat_le_of_le (by norm_num) h2
  · exact le_trans (UInt32.toNat_le_of_le (by norm_num) h2) (by norm_num)
  · subst h1; decide

lemma charOfNat_ne_brace (n : Nat) (h : n ≤ 122) : Char.ofNat n ≠ '{' := by
  revert h
  have : ∀ m < 123, Char.ofNat m ≠ '{' := by decide
  intro h
  exact this n (by omega)

/-- A successful `seqMatch` decomposes the pattern into its two `\w+` tokens. -/
lemma seqMatch_some {pat start stop : Str} (h : seqMatch pat = some (start, stop)) :
    pat = start ++ '.' :: '.' :: stop ∧
      start.all isWordChar = true ∧ stop.all isWordChar = true ∧
      start ≠ [] ∧ stop ≠ [] := by
  simp only [seqMatch] at h
  split at h
  case _ ignored stop2 heq =>
    split_ifs at h with hcond
    simp only [Option.some.injEq, Prod.mk.injEq] at h
    obtain ⟨rfl, rfl⟩ := h
    simp only [Bool.and_eq_true, decide_eq_true_eq] at hcond
    refine ⟨?_, hcond.1.1.2, hcond.2, hcond.1.1.1, hcond.1.2⟩
    conv_lhs => rw [← List.takeWhile_append_dropWhile (p := fun x => decide (x ≠ '.')) (l := pat)]
    rw [heq]
  case _ => exact absurd h (by simp)

lemma seqMatch_none_of_comma {pat : Str} (h : ',' ∈ pat) : seqMatch pat = none := by
  rcases hsm : seqMatch pat with _ | ⟨start, stop⟩
  · rfl
  · obtain ⟨hpat, hsw, hew, _, _⟩ := seqMatch_some hsm
    rw [hpat] at h
    simp only [List.mem_append, List.mem_cons] at h
    rcases h with h | h | h | h
    · have := (List.all_eq_true.mp hsw) ',' h
      simp [isWordChar] at this
    · exact absurd h (by decide)
    · exact absurd h (by decide)
    · have := (List.all_eq_true.mp hew) ',' h
      simp [isWordChar] at this

lemma expansionsOf_eq_comma {pat : Str} (h : seqMatch pat = none) :
    expansionsOf pat = splitComma pat := by
  unfold expansionsOf
  rw [h]

lemma expansionsOf_eq_seq {pat start stop : Str} (h : seqMatch pat = some (start, stop)) :
    expansionsOf pat = expandSequence start stop := by
  unfold expansionsOf
  rw [h]

/-- Every expansion produced for a valid pattern contains at most as many `{`
characters as the pattern itself. -/
lemma expansionsOf_count_le (pat : Str) :
    ∀ e ∈ expansionsOf pat, e.count '{' ≤ pat.count '{' := by
  intro e he
  rcases hsm : seqMatch pat with _ | ⟨start, stop⟩
  · rw [expansionsOf_eq_comma hsm] at he
    exact splitComma_count_le '{' pat e he
  · rw [expansionsOf_eq_seq hsm] at he
    obtain ⟨hpat, hsw, hew, hsne, hene⟩ := seqMatch_some hsm
    simp only [expandSequence] at he
    rcases hps : parseIntJS start with _ | a <;>
      rcases hpe : parseIntJS stop with _ | b <;>
      simp only [hps, hpe] at he
    case some.some =>
      -- both numeric: decimal strings contain no braces
      simp only [List.mem_map] at he
      obtain ⟨i, _, rfl⟩ := he
      split_ifs with hpad
      · rw [padZeros_count_brace _ _ (natToStr_count_brace i)]; omega
      · rw [natToStr_count_brace i]; omega
    all_goals (
      -- at least one token fails to parse as an integer
      split_ifs at he with hlen
      · -- character range: generated characters have codes ≤ 122 ≠ `{`
        simp only [List.mem_map] at he
        obtain ⟨n, hn, rfl⟩ := he
        have hs1 : (start.headD ' ').toNat ≤ 122 := by
          apply isWordChar_toNat_le
          rcases start with _ | ⟨c0, s0⟩
          · exact absurd rfl hsne
          · exact (List.all_eq_true.mp hsw) c0 (List.mem_cons_self _ _)
        have hs2 : (stop.headD ' ').toNat ≤ 122 := by
          apply isWordChar_toNat_le
          rcases stop with _ | ⟨c0, s0⟩
          · exact absurd rfl hene
          · exact (List.all_eq_true.mp hew) c0 (List.mem_cons_self _ _)
        have hle : n ≤ 122 := le_trans (rangeSeq_le _ _ n hn) (by omega)
        have hz : List.count '{' [Char.ofNat n] = 0 := by
          simp [List.count_cons, charOfNat_ne_brace n hle]
        rw [hz]; omega
      · -- invalid sequence: the result is the pattern text itself
        simp only [List.mem_singleton] at he
        subst he
        rw [hpat])

/-- The rewritten string of each recursive call of `expandBraces` has strictly
fewer `{` characters: the matched group's own opening brace is consumed. -/
lemma expandBraces_decrease {s pre pat suf e : Str}
    (hfind : findBracePattern s = some (pre, pat, suf)) (he : e ∈ expansionsOf pat) :
    countB (pre ++ e ++ suf) < countB s := by
  have hs := findBracePattern_some_eq hfind
  have hcount := expansionsOf_count_le pat e he
  subst hs
  simp only [countB, List.count_append, List.count_cons]
  rw [if_neg (show ¬(('}' == '{') = true) by decide),
    if_pos (show (('{' == '{') = true) by decide)]
  omega

/-- More fuel than the brace count never changes the result. -/
lemma expandBracesGo_congr :
    ∀ (f1 f2 : Nat) (s : Str), countB s < f1 → countB s < f2 →
      expandBracesGo f1 s = expandBracesGo f2 s
  | 0, _, _, h1, _ => absurd h1 (by omega)
  | _ + 1, 0, _, _, h2 => absurd h2 (by omega)
  | f1 + 1, f2 + 1, s, h1, h2 => by
    simp only [expandBracesGo]
    rcases hfind : findBracePattern s with _ | ⟨⟨pre, pat, suf⟩⟩
    · simp only [hfind]
    · simp only [hfind]
      congr 1
      apply List.map_congr_left
      intro e he
      have hlt := expandBraces_decrease hfind he
      exact expandBracesGo_congr f1 f2 (pre ++ e ++ suf) (by omega) (by omega)

/-- The recursion equation of the JavaScript `expandBraces` holds for the
fuelled definition. -/
lemma expandBraces_eq (s : Str) :
    expandBraces s =
      match findBracePattern s with
      | none => [s]
      | some (pre, pat, suf) =>
        ((expansionsOf pat).map fun e => expandBraces (pre ++ e ++ suf)).flatten := by
  unfold expandBraces
  rw [expandBracesGo]
  rcases hfind : findBracePattern s with _ | ⟨⟨pre, pat, suf⟩⟩
  · simp only [hfind]
  · simp only [hfind]
    congr 1
    apply List.map_congr_left
    intro e he
    have hlt := expandBraces_decrease hfind he
    exact expandBracesGo_congr _ _ _ (by omega) (by omega)

/-- Every string produced by `expandBraces` comes from the base case: it has no
remaining valid brace group. -/
lemma findBracePattern_of_mem_expandBraces :
    ∀ (s e : Str), e ∈ expandBraces s → findBracePattern e = none := by
  have H : ∀ (n : Nat) (s e : Str), countB s ≤ n → e ∈ expandBraces s →
      findBracePattern e = none := by
    intro n
    induction n with
    | zero =>
      intro s e hn he
      rw [expandBraces_eq] at he
      rcases hfind : findBracePattern s with _ | ⟨⟨pre, pat, suf⟩⟩
      · simp only [hfind, List.mem_singleton] at he
        subst he; exact hfind
      · exfalso
        have := findBracePattern_some_eq hfind
        subst this
        simp only [countB, List.count_append, List.count_cons] at hn
        norm_num at hn
    | succ n ih =>
      intro s e hn he
      rw [expandBraces_eq] at he
      rcases hfind : findBracePattern s with _ | ⟨⟨pre, pat, suf⟩⟩
      · simp only [hfind, List.mem_singleton] at he
        subst he; exact hfind
      · simp only [hfind, List.mem_flatten, List.mem_map] at he
        obtain ⟨l, ⟨x, hx, rfl⟩, hel⟩ := he
        have hlt := expandBraces_decrease hfind hx
        exact ih (pre ++ x ++ suf) e (by omega) hel
  intro s e he
  exact H (countB s) s e le_rfl he

/-! ### Claim C5 -/

/-- C5.  For every string in which no valid brace group is found, brace
expansion returns the singleton sequence containing the original string
unchanged; and brace expansion is idempotent on its own output: expanding every
produced string again (and concatenating) returns the output unchanged. -/
theorem expandBraces_singleton_and_idempotent :
    (∀ s : Str, findBracePattern s = none → expandBraces s = [s]) ∧
    (∀ s : Str, (expandBraces s).flatMap expandBraces = expandBraces s) := by
  have base : ∀ s : Str, findBracePattern s = none → expandBraces s = [s] := by
    intro s h
    rw [expandBraces_eq]
    simp only [h]
  refine ⟨base, ?_⟩
  intro s
  have hmem : ∀ e ∈ expandBraces s, expandBraces e = [e] := fun e he =>
    base e (findBracePattern_of_mem_expandBraces s e he)
  have H : ∀ (l : List Str), (∀ e ∈ l, expandBraces e = [e]) →
      l.flatMap expandBraces = l := by
    intro l
    induction l with
    | nil => intro _; rfl
    | cons a t ih =>
      intro h
      rw [List.flatMap_cons, h a (List.mem_cons_self _ _),
        ih fun e he => h e (List.mem_cons_of_mem _ he)]
      rfl
  exact H _ hmem

/-- Witness for C5 at concrete inputs: `"ab"` has no valid brace group and is
returned unchanged, and re-expanding the output of `"{a,b}"` is a no-op. -/
theorem expandBraces_singleton_and_idempotent_witness :
    expandBraces "ab".toList = ["ab".toList] ∧
      (expandBraces "\x7ba,b\x7d".toList).flatMap expandBraces =
        expandBraces "\x7ba,b\x7d".toList :=
  ⟨expandBraces_singleton_and_idempotent.1 "ab".toList (by decide),
    expandBraces_singleton_and_idempotent.2 "\x7ba,b\x7d".toList⟩

/-! ### Claim C6: combinatorial product of brace groups -/

/-- A character that is neither a brace nor a quote character. -/
def plainChar (c : Char) : Bool := !(c = '{' || c = '}' || c = '\'' || c = '"')

/-- A string of plain characters. -/
def plainWord (w : Str) : Bool := w.all plainChar

/-- JavaScript `l.join(',')`, the interior text of a list brace group. -/
def intercalateComma : List Str → Str
  | [] => []
  | [x] => x
  | x :: y :: ys => x ++ ',' :: intercalateComma (y :: ys)

/-- A whitespace-delimited unit with `K` brace groups, written
`w0 {g1} w1 {g2} w2 … {gK} wK`: a leading word and a list of (group, word)
pairs. -/
def assembleUnit (w0 : Str) : List (List Str × Str) → Str
  | [] => w0
  | (g, w) :: rest => w0 ++ '{' :: (intercalateComma g ++ '}' :: assembleUnit w rest)

/-- Modelled from the spec's words (§4.2, §8): the expected expansion of such a
unit — all selections of one item per group, in left-to-right nested order, the
first group varying slowest.  To be compared with `expandBraces`. -/
def specProductExpansion (w0 : Str) : List (List Str × Str) → List Str
  | [] => [w0]
  | (g, w) :: rest => g.flatMap fun item => specProductExpansion (w0 ++ item ++ w) rest

lemma findBraceAux_no_open :
    ∀ (l pre : Str) (q1 q2 : Bool), '{' ∉ l →
      findBraceAux l pre [] 0 q1 q2 = none := by
  intro l
  induction l with
  | nil => intro pre q1 q2 _; rfl
  | cons c rest ih =>
    intro pre q1 q2 hnl
    have hc : c ≠ '{' := fun h => hnl (h ▸ List.mem_cons_self _ _)
    have hrest : '{' ∉ rest := fun h => hnl (List.mem_cons_of_mem _ h)
    rw [findBraceAux]
    by_cases hA1 : (decide (c = '\'') && !q2) = true
    · rw [if_pos hA1, if_pos rfl]; exact ih _ _ _ hrest
    · rw [if_neg hA1]
      by_cases hA2 : (decide (c = '"') && !q1) = true
      · rw [if_pos hA2, if_pos rfl]; exact ih _ _ _ hrest
      · rw [if_neg hA2]
        by_cases hA3 : (q1 || q2) = true
        · rw [if_pos hA3, if_pos rfl]; exact ih _ _ _ hrest
        · rw [if_neg hA3, if_neg hc,
            if_neg (by simp : ¬((decide (c = '}') && decide ((0 : Nat) > 0)) = true)),
            if_pos rfl]
          exact ih _ _ _ hrest

/-- A string containing no `{` has no brace pattern. -/
lemma findBracePattern_no_open {s : Str} (h : '{' ∉ s) : findBracePattern s = none :=
  findBraceAux_no_open s [] false false h

lemma plainWord_not_mem {w : Str} (hw : plainWord w = true) {c : Char}
    (hc : plainChar c = false) : c ∉ w := by
  intro hmem
  have := (List.all_eq_true.mp hw) c hmem
  rw [this] at hc
  simp at hc

lemma findBraceAux_plain_head :
    ∀ (w l pre : Str), plainWord w = true →
      findBraceAux (w ++ l) pre [] 0 false false =
        findBraceAux l (w.reverse ++ pre) [] 0 false false := by
  intro w
  induction w with
  | nil => intro l pre _; rfl
  | cons c w' ih =>
    intro l pre hw
    have hc : plainChar c = true := (List.all_eq_true.mp hw) c (List.mem_cons_self _ _)
    have hw' : plainWord w' = true :=
      List.all_eq_true.mpr fun x hx => (List.all_eq_true.mp hw) x (List.mem_cons_of_mem _ hx)
    simp only [plainChar, Bool.not_eq_true', Bool.or_eq_false_iff, decide_eq_false_iff_not] at hc
    obtain ⟨⟨⟨hc1, hc2⟩, hc3⟩, hc4⟩ := hc
    rw [List.cons_append, findBraceAux,
      if_neg (by simp [hc3] : ¬((decide (c = '\'') && !false) = true)),
      if_neg (by simp [hc4] : ¬((decide (c = '"') && !false) = true)),
      if_neg (by simp : ¬((false || false) = true)),
      if_neg hc1,
      if_neg (by simp [hc2] : ¬((decide (c = '}') && decide ((0 : Nat) > 0)) = true)),
      if_pos rfl, ih l (c :: pre) hw']
    simp [List.append_assoc]

lemma findBraceAux_plain_interior :
    ∀ (m l pre acc : Str), plainWord m = true →
      findBraceAux (m ++ l) pre acc 1 false false =
        findBraceAux l pre (m.reverse ++ acc) 1 false false := by
  intro m
  induction m with
  | nil => intro l pre acc _; rfl
  | cons c m' ih =>
    intro l pre acc hm
    have hc : plainChar c = true := (List.all_eq_true.mp hm) c (List.mem_cons_self _ _)
    have hm' : plainWord m' = true :=
      List.all_eq_true.mpr fun x hx => (List.all_eq_true.mp hm) x (List.mem_cons_of_mem _ hx)
    simp only [plainChar, Bool.not_eq_true', Bool.or_eq_false_iff, decide_eq_false_iff_not] at hc
    obtain ⟨⟨⟨hc1, hc2⟩, hc3⟩, hc4⟩ := hc
    rw [List.cons_append, findBraceAux,
      if_neg (by simp [hc3] : ¬((decide (c = '\'') && !false) = true)),
      if_neg (by simp [hc4] : ¬((decide (c = '"') && !false) = true)),
      if_neg (by simp : ¬((false || false) = true)),
      if_neg hc1,
      if_neg (by simp [hc2] : ¬((decide (c = '}') && decide ((1 : Nat) > 0)) = true)),
      if_neg (by omega : ¬((1 : Nat) = 0)), ih l pre (c :: acc) hm']
    simp [List.append_assoc]

/-- A pattern containing a comma is valid. -/
lemma validPattern_of_mem_comma {m : Str} (hcomma : ',' ∈ m) :
    validPattern m = true := by
  simp only [validPattern, Bool.or_eq_true]
  left
  rw [List.contains_eq_any_beq]
  exact List.any_eq_true.mpr ⟨',', hcomma, by simp⟩

/-- On a unit `w0{m}suf` with plain `w0` and `m`, and valid interior `m`,
`findBracePattern` finds exactly that first group. -/
lemma findBracePattern_assemble (w0 m suf : Str) (hw0 : plainWord w0 = true)
    (hm : plainWord m = true) (hvalid : validPattern m = true) :
    findBracePattern (w0 ++ '{' :: (m ++ '}' :: suf)) = some (w0, m, suf) := by
  unfold findBracePattern
  rw [findBraceAux_plain_head w0 _ [] hw0, findBraceAux,
    if_neg (by simp : ¬((decide (('{' : Char) = '\'') && !false) = true)),
    if_neg (by simp : ¬((decide (('{' : Char) = '"') && !false) = true)),
    if_neg (by simp : ¬((false || false) = true)),
    if_pos rfl, if_pos rfl,
    findBraceAux_plain_interior m _ _ _ hm, findBraceAux,
    if_neg (by simp : ¬((decide (('}' : Char) = '\'') && !false) = true)),
    if_neg (by simp : ¬((decide (('}' : Char) = '"') && !false) = true)),
    if_neg (by simp : ¬((false || false) = true)),
    if_neg (by decide : ¬(('}' : Char) = '{')),
    if_pos (by simp : ((decide (('}' : Char) = '}') && decide ((1 : Nat) > 0)) = true)),
    if_pos rfl]
  have hval : validPattern (m.reverse ++ ([] : Str)).reverse = true := by
    simpa only [List.append_nil, List.reverse_reverse] using hvalid
  rw [if_pos hval]
  simp

lemma splitComma_append_no_comma :
    ∀ (x l : Str), ',' ∉ x → ∀ (p : Str) (ps : List Str),
      splitComma l = p :: ps → splitComma (x ++ l) = (x ++ p) :: ps := by
  intro x
  induction x with
  | nil => intro l _ p ps h; simpa using h
  | cons c x' ih =>
    intro l hx p ps h
    have hc : c ≠ ',' := fun hcc => hx (hcc ▸ List.mem_cons_self _ _)
    have hx' : ',' ∉ x' := fun hm => hx (List.mem_cons_of_mem _ hm)
    rw [List.cons_append, splitComma, if_neg hc, ih l hx' p ps h]
    rfl

lemma splitComma_no_comma (x : Str) (hx : ',' ∉ x) : splitComma x = [x] := by
  have := splitComma_append_no_comma x [] hx [] [] rfl
  simpa using this

lemma intercalateComma_comma_mem :
    ∀ (g : List Str), 2 ≤ g.length → ',' ∈ intercalateComma g
  | [], h => absurd h (by simp)
  | [_], h => absurd h (by simp)
  | _ :: _ :: _, _ => by
    rw [intercalateComma]
    exact List.mem_append_right _ (List.mem_cons_self _ _)

lemma intercalateComma_plain :
    ∀ (g : List Str), (∀ it ∈ g, plainWord it = true) →
      plainWord (intercalateComma g) = true
  | [], _ => rfl
  | [x], h => by rw [intercalateComma]; exact h x (List.mem_cons_self _ _)
  | x :: y :: ys, h => by
    rw [intercalateComma]
    have h1 : plainWord x = true := h x (List.mem_cons_self _ _)
    have h2 : plainWord (intercalateComma (y :: ys)) = true :=
      intercalateComma_plain (y :: ys) fun it hit => h it (List.mem_cons_of_mem _ hit)
    simp only [plainWord, List.all_append, List.all_cons, Bool.and_eq_true] at *
    exact ⟨h1, by decide, h2⟩

lemma splitComma_intercalate :
    ∀ (g : List Str), g ≠ [] → (∀ it ∈ g, ',' ∉ it) →
      splitComma (intercalateComma g) = g
  | [], h, _ => absurd rfl h
  | [x], _, hit => by
    rw [intercalateComma]
    exact splitComma_no_comma x (hit x (List.mem_cons_self _ _))
  | x :: y :: ys, _, hit => by
    rw [intercalateComma]
    have hrec : splitComma (intercalateComma (y :: ys)) = y :: ys :=
      splitComma_intercalate (y :: ys) (by simp) fun it h => hit it (List.mem_cons_of_mem _ h)
    have hstep : splitComma (',' :: intercalateComma (y :: ys)) = [] :: y :: ys := by
      rw [splitComma, if_pos rfl, hrec]
    rw [splitComma_append_no_comma x _ (hit x (List.mem_cons_self _ _)) _ _ hstep]
    simp

lemma assembleUnit_append :
    ∀ (rest : List (List Str × Str)) (v w : Str),
      assembleUnit (v ++ w) rest = v ++ assembleUnit w rest
  | [], _, _ => rfl
  | (g, w') :: r, v, w => by
    rw [assembleUnit, assembleUnit, List.append_assoc]

lemma sum_map_const {α : Type} (l : List α) (k : Nat) :
    (l.map fun _ => k).sum = l.length * k := by
  induction l with
  | nil => simp
  | cons a t ih => simp [ih, Nat.succ_mul, Nat.add_comm]

/-! ### Claim C6 -/

/-- C6.  For every whitespace-delimited unit containing `K` valid brace groups
with list sizes `n1..nK` (plain words around plain, comma-free items), brace
expansion yields exactly the product expansion — `n1×…×nK` strings in
left-to-right nested order with the first group varying slowest; in particular
`{a,b}{1,2}` expands to `a1 a2 b1 b2` in that order. -/
theorem expandBraces_product :
    (∀ (parts : List (List Str × Str)) (w0 : Str), plainWord w0 = true →
      (∀ p ∈ parts, plainWord p.2 = true ∧ 2 ≤ p.1.length ∧
        ∀ it ∈ p.1, plainWord it = true ∧ ',' ∉ it) →
      expandBraces (assembleUnit w0 parts) = specProductExpansion w0 parts ∧
        (specProductExpansion w0 parts).length =
          (parts.map fun p => p.1.length).prod) ∧
    expandBraces "\x7ba,b\x7d\x7b1,2\x7d".toList =
      ["a1".toList, "a2".toList, "b1".toList, "b2".toList] := by
  constructor
  · intro parts
    induction parts with
    | nil =>
      intro w0 hw0 _
      refine ⟨?_, by simp [specProductExpansion]⟩
      rw [show assembleUnit w0 [] = w0 from rfl, expandBraces_eq,
        findBracePattern_no_open (plainWord_not_mem hw0 (by decide))]
      rfl
    | cons p rest ih =>
      obtain ⟨g, w⟩ := p
      intro w0 hw0 hparts
      have hpw : plainWord w = true := (hparts (g, w) (List.mem_cons_self _ _)).1
      have hglen : 2 ≤ g.length := (hparts (g, w) (List.mem_cons_self _ _)).2.1
      have hitems := (hparts (g, w) (List.mem_cons_self _ _)).2.2
      have hm : plainWord (intercalateComma g) = true :=
        intercalateComma_plain g fun it hit => (hitems it hit).1
      have hcomma : ',' ∈ intercalateComma g := intercalateComma_comma_mem g hglen
      have hfind := findBracePattern_assemble w0 (intercalateComma g)
        (assembleUnit w rest) hw0 hm (validPattern_of_mem_comma hcomma)
      have hexp : expansionsOf (intercalateComma g) = g := by
        rw [expansionsOf_eq_comma (seqMatch_none_of_comma hcomma),
          splitComma_intercalate g (by intro h; rw [h] at hglen; simp at hglen)
            fun it hit => (hitems it hit).2]
      have hplain3 : ∀ item ∈ g, plainWord (w0 ++ item ++ w) = true := by
        intro item hitem
        have h1 := (hitems item hitem).1
        simp only [plainWord, List.all_append, Bool.and_eq_true] at *
        exact ⟨⟨hw0, h1⟩, hpw⟩
      have hih : ∀ item ∈ g,
          expandBraces (assembleUnit (w0 ++ item ++ w) rest) =
              specProductExpansion (w0 ++ item ++ w) rest ∧
            (specProductExpansion (w0 ++ item ++ w) rest).length =
              (rest.map fun p => p.1.length).prod := fun item hitem =>
        ih (w0 ++ item ++ w) (hplain3 item hitem)
          fun q hq => hparts q (List.mem_cons_of_mem _ hq)
      constructor
      · rw [show assembleUnit w0 ((g, w) :: rest) =
            w0 ++ '{' :: (intercalateComma g ++ '}' :: assembleUnit w rest) from rfl,
          expandBraces_eq]
        simp only [hfind, hexp]
        rw [show specProductExpansion w0 ((g, w) :: rest) =
            g.flatMap (fun item => specProductExpansion (w0 ++ item ++ w) rest) from rfl,
          List.flatMap]
        congr 1
        apply List.map_congr_left
        intro item hitem
        have hassoc : w0 ++ item ++ assembleUnit w rest =
            assembleUnit (w0 ++ item ++ w) rest := by
          rw [assembleUnit_append rest (w0 ++ item) w]
        rw [hassoc]
        exact (hih item hitem).1
      · rw [show specProductExpansion w0 ((g, w) :: rest) =
            g.flatMap (fun item => specProductExpansion (w0 ++ item ++ w) rest) from rfl,
          List.flatMap, List.length_flatten, List.map_map]
        have hc : (g.map (List.length ∘ fun item =>
            specProductExpansion (w0 ++ item ++ w) rest)) =
            g.map fun _ => (rest.map fun p => p.1.length).prod :=
          List.map_congr_left fun item hitem => (hih item hitem).2
        rw [hc, sum_map_const, List.map_cons, List.prod_cons]
  · decide

/-- Witness for C6: the general product theorem applied to the concrete unit
`{x,y,z}{1,2}` (sizes 3 and 2, hence 6 strings). -/
theorem expandBraces_product_witness :
    expandBraces (assembleUnit []
        [(["x".toList, "y".toList, "z".toList], []), (["1".toList, "2".toList], [])]) =
      specProductExpansion []
        [(["x".toList, "y".toList, "z".toList], []), (["1".toList, "2".toList], [])] ∧
      (specProductExpansion []
        [(["x".toList, "y".toList, "z".toList], []), (["1".toList, "2".toList], [])]).length = 6 := by
  have h := expandBraces_product.1
    [(["x".toList, "y".toList, "z".toList], []), (["1".toList, "2".toList], [])]
    [] (by decide) (by decide)
  exact ⟨h.1, by rw [h.2]; decide⟩

/-! ### Claim C7: invalid range groups -/

lemma isWordChar_ne_dot {c : Char} (h : isWordChar c = true) : c ≠ '.' := by
  intro hc
  rw [hc] at h
  exact absurd h (by decide)

lemma isWordChar_plainChar {c : Char} (h : isWordChar c = true) : plainChar c = true := by
  have h1 : c ≠ '{' := fun hc => by rw [hc] at h; exact absurd h (by decide)
  have h2 : c ≠ '}' := fun hc => by rw [hc] at h; exact absurd h (by decide)
  have h3 : c ≠ '\'' := fun hc => by rw [hc] at h; exact absurd h (by decide)
  have h4 : c ≠ '"' := fun hc => by rw [hc] at h; exact absurd h (by decide)
  simp [plainChar, h1, h2, h3, h4]

lemma hasDotDot_append : ∀ (x y : Str), hasDotDot (x ++ '.' :: '.' :: y) = true
  | [], y => by rw [List.nil_append, hasDotDot]; simp
  | [a], y => by
    rw [show ([a] ++ '.' :: '.' :: y) = a :: '.' :: ('.' :: y) from rfl, hasDotDot]
    have : hasDotDot ('.' :: '.' :: y) = true := by rw [hasDotDot]; simp
    simp [this]
  | a :: b :: x', y => by
    rw [show ((a :: b :: x') ++ '.' :: '.' :: y) = a :: (b :: (x' ++ '.' :: '.' :: y)) from rfl,
      hasDotDot]
    have := hasDotDot_append (b :: x') y
    rw [show ((b :: x') ++ '.' :: '.' :: y) = b :: (x' ++ '.' :: '.' :: y) from rfl] at this
    simp [this]

lemma takeWhile_word_dots (start stop : Str) (hs : start.all isWordChar = true) :
    (start ++ '.' :: '.' :: stop).takeWhile (fun x => decide (x ≠ '.')) = start := by
  induction start with
  | nil => simp [List.takeWhile]
  | cons c s' ih =>
    have hc : isWordChar c = true := (List.all_eq_true.mp hs) c (List.mem_cons_self _ _)
    have hs' : s'.all isWordChar = true :=
      List.all_eq_true.mpr fun x hx => (List.all_eq_true.mp hs) x (List.mem_cons_of_mem _ hx)
    simp [List.cons_append, List.takeWhile_cons, isWordChar_ne_dot hc]
    simpa using ih hs'

lemma dropWhile_word_dots (start stop : Str) (hs : start.all isWordChar = true) :
    (start ++ '.' :: '.' :: stop).dropWhile (fun x => decide (x ≠ '.')) =
      '.' :: '.' :: stop := by
  induction start with
  | nil => simp [List.dropWhile]
  | cons c s' ih =>
    have hc : isWordChar c = true := (List.all_eq_true.mp hs) c (List.mem_cons_self _ _)
    have hs' : s'.all isWordChar = true :=
      List.all_eq_true.mpr fun x hx => (List.all_eq_true.mp hs) x (List.mem_cons_of_mem _ hx)
    simp [List.cons_append, List.dropWhile_cons, isWordChar_ne_dot hc]
    simpa using ih hs'

/-- The function `seqMatch` succeeds on a well-formed `\w+..\w+` pattern. -/
lemma seqMatch_of_words (start stop : Str) (hsne : start ≠ []) (hene : stop ≠ [])
    (hs : start.all isWordChar = true) (he : stop.all isWordChar = true) :
    seqMatch (start ++ '.' :: '.' :: stop) = some (start, stop) := by
  simp only [seqMatch, takeWhile_word_dots start stop hs, dropWhile_word_dots start stop hs]
  rw [if_pos]
  simp [hsne, hene, hs, he]

lemma plainWord_word_dots (start stop : Str)
    (hs : start.all isWordChar = true) (he : stop.all isWordChar = true) :
    plainWord (start ++ '.' :: '.' :: stop) = true := by
  simp only [plainWord, List.all_append, List.all_cons, Bool.and_eq_true]
  refine ⟨List.all_eq_true.mpr fun x hx =>
      isWordChar_plainChar ((List.all_eq_true.mp hs) x hx),
    by decide, by decide,
    List.all_eq_true.mpr fun x hx => isWordChar_plainChar ((List.all_eq_true.mp he) x hx)⟩

/-- The fallback branch of `expandSequence` (part_005 lines 370-373). -/
lemma expandSequence_invalid (start stop : Str)
    (hnum : parseIntJS start = none ∨ parseIntJS stop = none)
    (hlen : ¬(start.length = 1 ∧ stop.length = 1)) :
    expandSequence start stop = [start ++ '.' :: '.' :: stop] := by
  have hcond : ¬((decide (start.length = 1) && decide (stop.length = 1)) = true) := by
    simp only [Bool.and_eq_true, decide_eq_true_eq]
    exact hlen
  simp only [expandSequence]
  rcases hps : parseIntJS start with _ | a <;> rcases hpe : parseIntJS stop with _ | b <;>
    simp only [hps, hpe]
  · rw [if_neg hcond]
  · rw [if_neg hcond]
  · rw [if_neg hcond]
  · rw [hps] at hnum; rw [hpe] at hnum
    rcases hnum with h | h <;> simp at h

/-- C7 (amended).  For every range-form brace group `{start..end}` whose tokens
neither both parse as integers nor are both single characters, the expansion
fails silently and the interior text `start..end` is kept unchanged — but the
surrounding braces are removed from the output (the fallback of
`expandSequence` returns `start..end` without braces, and `expandBraces` glues
it between the prefix and suffix of the group). -/
theorem expandBraces_invalid_range (start stop : Str) (hsne : start ≠ [])
    (hene : stop ≠ []) (hs : start.all isWordChar = true)
    (he : stop.all isWordChar = true)
    (hnum : parseIntJS start = none ∨ parseIntJS stop = none)
    (hlen : ¬(start.length = 1 ∧ stop.length = 1)) :
    expandBraces ('{' :: ((start ++ '.' :: '.' :: stop) ++ ['}'])) =
      [start ++ '.' :: '.' :: stop] := by
  have hplain : plainWord (start ++ '.' :: '.' :: stop) = true :=
    plainWord_word_dots start stop hs he
  have hfind : findBracePattern ('{' :: ((start ++ '.' :: '.' :: stop) ++ ['}'])) =
      some ([], start ++ '.' :: '.' :: stop, []) := by
    have := findBracePattern_assemble [] (start ++ '.' :: '.' :: stop) [] rfl hplain
      (by simp only [validPattern, Bool.or_eq_true]; right; exact hasDotDot_append start stop)
    simpa using this
  rw [expandBraces_eq]
  simp only [hfind]
  rw [expansionsOf_eq_seq (seqMatch_of_words start stop hsne hene hs he),
    expandSequence_invalid start stop hnum hlen]
  simp only [List.map_cons, List.map_nil, List.nil_append, List.append_nil, List.flatten]
  rw [expandBraces_eq, findBracePattern_no_open
    (plainWord_not_mem hplain (by decide))]

/-- Witness for C7 (amended) at `{ab..cd}`: the output is `ab..cd`. -/
theorem expandBraces_invalid_range_witness :
    expandBraces ('{' :: (("ab".toList ++ '.' :: '.' :: "cd".toList) ++ ['}'])) =
      ["ab".toList ++ '.' :: '.' :: "cd".toList] :=
  expandBraces_invalid_range "ab".toList "cd".toList (by decide) (by decide)
    (by decide) (by decide) (Or.inl (by decide)) (by decide)

/-- Counterexample to C7 as stated: `{ab..cd}` does not stay `{ab..cd}` — the
braces are stripped and the output is `ab..cd`. -/
theorem expandBraces_invalid_range_counterexample :
    expandBraces "\x7bab..cd\x7d".toList = ["ab..cd".toList] ∧
      expandBraces "\x7bab..cd\x7d".toList ≠ ["\x7bab..cd\x7d".toList] := by
  constructor
  · decide
  · decide

/-! ### Claims C1 and C2: the REPL semicolon dispatch and pipeline failures -/

/-- C1 (evaluation at the failing input).  The REPL's semicolon dispatch
(part_005 line 1276) refuses to split the quote-free line `echo a; echo b`:
the guard `command.includes(';') && !command.match(/^[^'"]*;[^'"]*$/)` only
lets a semicolon line through when it also contains a quote character, so the
quote-free line is executed as one single command — even though
`splitBySemicolon` itself would split it into `echo a` and `echo b` (which
`executeCommandsSequentially` would then run in order), and a line containing
quotes is split. -/
theorem replSemicolonSplit_quote_free_bug :
    replSemicolonSplit "echo a; echo b".toList = none ∧
      splitBySemicolon "echo a; echo b".toList = ["echo a".toList, "echo b".toList] ∧
      replSemicolonSplit ("echo ".toList ++ sq ++ "a;b".toList ++ sq ++ "; echo c".toList) =
        some ["echo ".toList ++ sq ++ "a;b".toList ++ sq, "echo c".toList] := by
  refine ⟨by decide, by decide, by decide⟩

/-- C2 (evaluation at the failing inputs).  When a pipeline stage's program is
not located, `executePipeline` (part_005 lines 1066-1070) prints the message and
returns without touching `lastExitCode` — the exit status stays at its previous
value instead of 127; and the scenario line `nonexistent_cmd; echo $?` is not
even split by the REPL (claim C1's guard), so it cannot print 127. -/
theorem executePipelineExit_notFound_bug :
    executePipelineExit [Stage.notFound, Stage.external (some 0)] 0 = 0 ∧
      (0 : Int) ≠ 127 ∧
      replSemicolonSplit "nonexistent_cmd; echo $?".toList = none := by
  refine ⟨by decide, by decide, by decide⟩

/-! ### Claim C3: pipeline exit status -/

/-- C3.  For every foreground pipeline of two or more stages, all of whose
programs are located, the exit status stored by `executePipeline` is the last
stage's status — the statuses of the earlier stages and the previous value of
`$?` do not appear in the result. -/
theorem executePipelineExit_last (pre : List Stage) (st : Stage) (prev : Int)
    (hpre : pre ≠ [])
    (hfound : ∀ s ∈ pre ++ [st], stageFound s = true) :
    executePipelineExit (pre ++ [st]) prev = stageStatus st := by
  rcases pre with _ | ⟨p0, pre'⟩
  · exact absurd rfl hpre
  · unfold executePipelineExit
    rw [if_neg (by simp)]
    have hany : ((p0 :: pre') ++ [st]).any (fun s => !stageFound s) = false := by
      rw [List.any_eq_false]
      intro x hx
      rw [hfound x hx]
      simp
    rw [if_neg (by rw [hany]; exact Bool.false_ne_true), List.getLast?_concat]

/-- Witness for C3: a two-stage pipeline whose first stage exits 3 and last
stage exits 0 stores status 0 regardless of the previous `$?` value 5. -/
theorem executePipelineExit_last_witness :
    executePipelineExit [Stage.external (some 3), Stage.external (some 0)] 5 =
      stageStatus (Stage.external (some 0)) :=
  executePipelineExit_last [Stage.external (some 3)] (Stage.external (some 0)) 5
    (by decide) (by decide)

/-! ### Claim C4: alias expansion terminates, one substitution per chain -/

lemma length_filter_mono {α : Type} (p q : α → Bool) :
    ∀ (l : List α), (∀ x ∈ l, p x = true → q x = true) →
      (l.filter p).length ≤ (l.filter q).length := by
  intro l
  induction l with
  | nil => intro _; simp
  | cons a t ih =>
    intro h
    have ht := ih fun x hx => h x (List.mem_cons_of_mem _ hx)
    by_cases hp : p a = true
    · rw [List.filter_cons_of_pos hp, List.filter_cons_of_pos (h a (List.mem_cons_self _ _) hp)]
      simpa using ht
    · rw [List.filter_cons_of_neg (by simpa using hp)]
      rcases hq : q a with _ | _
      · rw [List.filter_cons_of_neg (by simp [hq])]
        exact ht
      · rw [List.filter_cons_of_pos hq]
        exact le_trans ht (by simp)

/-- Adding an unused alias name to the guard strictly shrinks the fuel. -/
lemma aliasFuel_lt (t : AliasTable) (guard : List Str) (fw : Str)
    (hmem : fw ∈ t.map Prod.fst) (hng : fw ∉ guard) :
    aliasFuel t (fw :: guard) < aliasFuel t guard := by
  unfold aliasFuel
  revert hmem
  generalize t.map Prod.fst = keys
  intro hmem
  induction keys with
  | nil => simp at hmem
  | cons k ks ih =>
    by_cases hk : k = fw
    · rw [hk]
      rw [List.filter_cons_of_neg (by simp), List.filter_cons_of_pos (by simpa using hng)]
      have hmono : ((ks.filter fun x => decide (x ∉ fw :: guard)).length ≤
          (ks.filter fun x => decide (x ∉ guard)).length) :=
        length_filter_mono _ _ ks fun x _ hx => by
          simp only [decide_eq_true_eq, List.mem_cons, not_or] at *
          exact hx.2
      simp only [List.length_cons]
      omega
    · have hmem' : fw ∈ ks := by
        rcases List.mem_cons.mp hmem with h | h
        · exact absurd h.symm hk
        · exact h
      have := ih hmem'
      by_cases hkg : k ∈ guard
      · rw [List.filter_cons_of_neg (by simp [hkg]),
          List.filter_cons_of_neg (by simp [hkg])]
        exact this
      · rw [List.filter_cons_of_pos (by simp [hkg, hk]),
          List.filter_cons_of_pos (by simpa using hkg)]
        simpa using this

lemma lookupAlias_mem {t : AliasTable} {k v : Str} (h : lookupAlias t k = some v) :
    k ∈ t.map Prod.fst := by
  unfold lookupAlias at h
  rcases hf : t.find? fun p => p.1 = k with _ | p
  · rw [hf] at h; simp at h
  · have hmem := List.mem_of_find?_eq_some hf
    have hp := List.find?_some hf
    simp only [decide_eq_true_eq] at hp
    exact List.mem_map.mpr ⟨p, hmem, hp⟩

/-- More fuel than the measure never changes the result of alias expansion. -/
lemma expandAliasesGo_congr (t : AliasTable) :
    ∀ (f1 f2 : Nat) (line : Str) (guard : List Str),
      aliasFuel t guard < f1 → aliasFuel t guard < f2 →
      expandAliasesGo t f1 line guard = expandAliasesGo t f2 line guard
  | 0, _, _, _, h1, _ => absurd h1 (by omega)
  | _ + 1, 0, _, _, _, h2 => absurd h2 (by omega)
  | f1 + 1, f2 + 1, line, guard, h1, h2 => by
    simp only [expandAliasesGo]
    by_cases htr : trimStr line = []
    · rw [if_pos htr, if_pos htr]
    · rw [if_neg htr, if_neg htr]
      rcases hla : lookupAlias t (firstWordOf (trimStr line)) with _ | v

      · simp only [hla]
      · simp only [hla]
        by_cases hg : firstWordOf (trimStr line) ∈ guard
        · rw [if_pos hg, if_pos hg]
        · rw [if_neg hg, if_neg hg]
          have hlt := aliasFuel_lt t guard (firstWordOf (trimStr line))
            (lookupAlias_mem hla) hg
          exact expandAliasesGo_congr t f1 f2 _ _ (by omega) (by omega)

/-- C4.  Alias expansion terminates on every command line and alias table: the
fuelled computation is independent of any sufficient fuel (first conjunct — the
recursion always bottoms out before the guard exhausts the alias names); a
first word already in the guard is never expanded again (second conjunct — the
cycle-break, so each alias is substituted at most once per chain); and after
`alias foo='foo bar'`, invoking `foo` rewrites the line to `foo bar` exactly
once (third conjunct). -/
theorem expandAliases_terminates_once :
    (∀ (t : AliasTable) (fuel : Nat) (line : Str) (guard : List Str),
      aliasFuel t guard < fuel →
      expandAliasesGo t fuel line guard = expandAliases t line guard) ∧
    (∀ (t : AliasTable) (line : Str) (guard : List Str),
      firstWordOf (trimStr line) ∈ guard → expandAliases t line guard = line) ∧
    expandAliases [("foo".toList, "foo bar".toList)] "foo".toList [] =
      "foo bar".toList := by
  refine ⟨?_, ?_, by decide⟩
  · intro t fuel line guard hfuel
    exact expandAliasesGo_congr t fuel (aliasFuel t guard + 1) line guard hfuel (by omega)
  · intro t line guard hg
    unfold expandAliases
    rw [expandAliasesGo]
    by_cases htr : trimStr line = []
    · rw [if_pos htr]
    · rw [if_neg htr]
      rcases hla : lookupAlias t (firstWordOf (trimStr line)) with _ | v
      · simp only [hla]
      · simp only [hla]
        rw [if_pos hg]

/-- Witness for C4: the fuel-independence and guard-block conjuncts applied to a
concrete table, line and guard. -/
theorem expandAliases_terminates_once_witness :
    (expandAliasesGo [("a".toList, "b c".toList)] 7 "a x".toList [] =
      expandAliases [("a".toList, "b c".toList)] "a x".toList []) ∧
      expandAliases [("a".toList, "b c".toList)] "a x".toList ["a".toList] =
        "a x".toList :=
  ⟨expandAliases_terminates_once.1 [("a".toList, "b c".toList)] 7 "a x".toList []
      (by decide),
    expandAliases_terminates_once.2.1 [("a".toList, "b c".toList)] "a x".toList
      ["a".toList] (by decide)⟩

/-! ### Claim C8: the job state machine -/

lemma jobStep_not_stopped {s s' : JobState} (h : JobStep s s') (hs : s ≠ .stopped) :
    s' ≠ .stopped := by
  cases h with
  | update exited s => cases exited <;> simp_all
  | exitCallback => simp
  | bgResume => simp
  | fgNoop => exact hs

/-- The code never sets a job's state to `Stopped`: the state is unreachable. -/
lemma reachable_not_stopped {s : JobState} (h : ReachableState s) : s ≠ .stopped := by
  induction h with
  | refl => simp
  | tail _ hstep ih => exact jobStep_not_stopped hstep ih

/-- C8.  From every reachable job state, every mutation of the code either
leaves the state unchanged or moves `Running → Done`; in particular the moves
stay inside the transitions the claim allows (`Running→Done`,
`Running→Stopped→Running`), and no operation ever transitions a job out of
`Done`. -/
theorem jobState_transitions (s s' : JobState) (hr : ReachableState s)
    (hstep : JobStep s s') :
    (s = .done → s' = .done) ∧
      (s' = s ∨ (s = .running ∧ s' = .done)) := by
  have hns : s ≠ .stopped := reachable_not_stopped hr
  cases hstep with
  | update exited s =>
    cases exited
    · exact ⟨fun h => h, Or.inl rfl⟩
    · cases s with
      | running => exact ⟨fun h => absurd h (by decide), Or.inr ⟨rfl, rfl⟩⟩
      | stopped => exact absurd rfl hns
      | done => exact ⟨fun _ => rfl, Or.inl rfl⟩
  | exitCallback s =>
    cases s with
    | running => exact ⟨fun h => absurd h (by decide), Or.inr ⟨rfl, rfl⟩⟩
    | stopped => exact absurd rfl hns
    | done => exact ⟨fun _ => rfl, Or.inl rfl⟩
  | bgResume s h =>
    cases s with
    | running => exact ⟨fun hh => absurd hh (by decide), Or.inl rfl⟩
    | stopped => exact absurd rfl hns
    | done => exact absurd rfl h
  | fgNoop s h => exact ⟨fun hh => hh, Or.inl rfl⟩

/-- Witness for C8: the exit callback fired on a freshly created (`Running`)
job. -/
theorem jobState_transitions_witness :
    (JobState.running = JobState.done → JobState.done = JobState.done) ∧
      (JobState.done = JobState.running ∨
        (JobState.running = JobState.running ∧ JobState.done = JobState.done)) :=
  jobState_transitions .running .done Relation.ReflTransGen.refl
    (JobStep.exitCallback .running)

/-! ### Claim C9: `fg`/`bg` lookup -/

/-- Invariant of the reachable job tables: since `cleanupJobs` is never invoked,
the ids are exactly `1, 2, …, length` in creation order, and `nextJobId` is one
past the end. -/
def idsContiguous (t : List Job × Nat) : Prop :=
  t.1.map Job.id = List.range' 1 t.1.length ∧ t.2 = t.1.length + 1

lemma idsContiguous_map_id_preserving (jobs : List Job) (n : Nat) (f : Job → Job)
    (hf : ∀ j, (f j).id = j.id) (h : idsContiguous (jobs, n)) :
    idsContiguous (jobs.map f, n) := by
  obtain ⟨h1, h2⟩ := h
  refine ⟨?_, by simpa using h2⟩
  rw [List.map_map, List.length_map]
  have : (Job.id ∘ f) = Job.id := funext fun j => hf j
  rw [this, h1]

lemma reachable_idsContiguous {t : List Job × Nat} (h : ReachableTable t) :
    idsContiguous t := by
  induction h with
  | init => exact ⟨rfl, rfl⟩
  | add t cmd bg _ ih =>
    obtain ⟨h1, h2⟩ := ih
    constructor
    · simp only [addJob, List.map_append, List.length_append, List.map_cons, List.map_nil,
        List.length_cons, List.length_nil]
      rw [h1, h2, show t.1.length + (0 + 1) = t.1.length + 1 from by omega,
        List.range'_1_concat, Nat.add_comm 1 t.1.length]
    · simp [addJob, h2]
  | update jobs n exited _ ih =>
    exact idsContiguous_map_id_preserving jobs n _ (fun j => by split <;> rfl) ih
  | bgStep jobs n arg _ ih =>
    rcases hg : getJob jobs (fgBgJobId jobs arg) with _ | j
    · simpa only [bgBuiltin, hg] using ih
    · by_cases hd : j.state = .done
      · simpa only [bgBuiltin, hg, if_pos hd] using ih
      · have := idsContiguous_map_id_preserving jobs n
          (fun jj => if jj.id = j.id then
            { jj with state := .running, background := true } else jj)
          (fun jj => by by_cases h : jj.id = j.id <;> simp [h]) ih
        simpa only [bgBuiltin, hg, if_neg hd] using this
  | exitCb jobs n jobId _ ih =>
    exact idsContiguous_map_id_preserving jobs n _ (fun j => by split <;> rfl) ih

/-- In a list whose ids are `s, s+1, …`, looking up the last id finds the last
element. -/
lemma getJob_range'_last :
    ∀ (jobs : List Job) (s : Nat), jobs ≠ [] →
      jobs.map Job.id = List.range' s jobs.length →
      getJob jobs (s + jobs.length - 1) = jobs.getLast?
  | [], _, hne, _ => absurd rfl hne
  | [j], s, _, hids => by
    have hj : j.id = s := by simpa using hids
    simp [getJob, List.find?, hj]
  | j :: j2 :: rest, s, _, hids => by
    rw [show (j :: j2 :: rest).length = (j2 :: rest).length + 1 from rfl,
      List.range'_succ, List.map_cons, List.cons_eq_cons] at hids
    obtain ⟨hj, hids'⟩ := hids
    have htail := getJob_range'_last (j2 :: rest) (s + 1) (by simp) hids'
    have hlen : s + (j :: j2 :: rest).length - 1 = s + 1 + (j2 :: rest).length - 1 := by
      simp only [List.length_cons]
      omega
    unfold getJob at htail ⊢
    rw [hlen, List.find?_cons, show decide (j.id = s + 1 + (j2 :: rest).length - 1) =
        false from by
      simp only [decide_eq_false_iff_not, List.length_cons]
      omega]
    rw [htail, List.getLast?_cons_cons]

/-- C9.  On every reachable job table, `fg`/`bg` invoked without an argument
default to the most recently created job (`jobs.length` is the last job's id);
with an id argument they fail with exit status 1 when the id matches no job or
the matched job is already `Done`; and a lookup that finds a non-`Done` job
never errors (exit status 0). -/
theorem fgBg_lookup (jobs : List Job) (n : Nat) (hr : ReachableTable (jobs, n)) :
    (jobs ≠ [] → getJob jobs (fgBgJobId jobs none) = jobs.getLast?) ∧
      (∀ jid : Nat, getJob jobs jid = none →
        (fgBuiltin jobs (some jid)).1 = 1 ∧ (bgBuiltin jobs (some jid)).1.1 = 1) ∧
      (∀ (jid : Nat) (j : Job), getJob jobs jid = some j → j.state = .done →
        (fgBuiltin jobs (some jid)).1 = 1 ∧ (bgBuiltin jobs (some jid)).1.1 = 1) ∧
      (∀ (jid : Nat) (j : Job), getJob jobs jid = some j → j.state ≠ .done →
        (fgBuiltin jobs (some jid)).1 = 0 ∧ (bgBuiltin jobs (some jid)).1.1 = 0) := by
  obtain ⟨hids, _⟩ := reachable_idsContiguous hr
  refine ⟨?_, ?_, ?_, ?_⟩
  · intro hne
    have := getJob_range'_last jobs 1 hne hids
    simpa [fgBgJobId] using this
  · intro jid hnone
    unfold fgBuiltin bgBuiltin
    simp only [fgBgJobId, hnone]
    exact ⟨trivial, trivial⟩
  · intro jid j hsome hdone
    unfold fgBuiltin bgBuiltin
    simp only [fgBgJobId, hsome, if_pos hdone]
    exact ⟨trivial, trivial⟩
  · intro jid j hsome hdone
    unfold fgBuiltin bgBuiltin
    simp only [fgBgJobId, hsome, if_neg hdone]
    exact ⟨trivial, trivial⟩

/-- The job table after creating two background jobs. -/
def demoTable : List Job × Nat :=
  addJob (addJob ([], 1) "sleep 5".toList true) "top".toList true

/-- Witness for C9 on the two-job table: the no-argument default finds the last
job, id 99 errors, and the (non-`Done`) job with id 1 succeeds. -/
theorem fgBg_lookup_witness :
    (getJob demoTable.1 (fgBgJobId demoTable.1 none) = demoTable.1.getLast?) ∧
      (fgBuiltin demoTable.1 (some 99)).1 = 1 ∧
      (fgBuiltin demoTable.1 (some 1)).1 = 0 := by
  have h := fgBg_lookup demoTable.1 demoTable.2
    (ReachableTable.add _ _ _ (ReachableTable.add _ _ _ ReachableTable.init))
  refine ⟨h.1 (by decide), (h.2.1 99 (by decide)).1, ?_⟩
  exact (h.2.2.2 1 ⟨1, "sleep 5".toList, .running, true⟩ (by decide) (by decide)).1

/-! ### Claim C10: `type` reports aliases first -/

/-- C10.  For every name registered in the alias table, the `type` builtin
reports the alias definition with exit status 0 — regardless of the builtin
list and of whatever the PATH search would find: the alias check comes first. -/
theorem typeBuiltin_alias_first (aliases : AliasTable) (findExec : Str → Option Str)
    (arg v : Str) (h : lookupAlias aliases arg = some v) :
    typeBuiltin aliases findExec arg =
      (0, arg ++ " is aliased to ".toList ++ sq ++ v ++ sq ++ ['\n']) := by
  unfold typeBuiltin
  simp only [h]

/-- Witness for C10: `echo` is simultaneously an alias, a builtin, and found on
PATH; `type` reports the alias. -/
theorem typeBuiltin_alias_first_witness :
    typeBuiltin [("echo".toList, "echo -n".toList)]
        (fun _ => some "/bin/echo".toList) "echo".toList =
      (0, "echo".toList ++ " is aliased to ".toList ++ sq ++ "echo -n".toList ++
        sq ++ ['\n']) :=
  typeBuiltin_alias_first [("echo".toList, "echo -n".toList)]
    (fun _ => some "/bin/echo".toList) "echo".toList "echo -n".toList (by decide)

end ShellJS
